import Mathlib

/-!
A shallow embedding of the Rust-LSynth software sound chip.

Modelling conventions:
* `f32` scalars in channel/chip state are modelled as `ℚ` (exact arithmetic);
  audio sample values produced by the waveform functions are modelled as `ℝ`
  because the sine waveform needs `Real.sin`.
* The global random source `waveform::noise()` is modelled by an explicit
  stream `ns : ℕ → ℚ` together with a cursor; each call reads `ns i` and
  moves the cursor to `i + 1`.  `rand::random::<f32>()` lies in `[0,1)`, so
  a noise value `random * 2 - 1` lies in `[-1,1)`.
* Rust code that can panic (out-of-bounds indexing) is modelled with
  `Option`, `none` standing for the panic.
* The Rust float-to-integer cast `as usize` saturates, so a negative
  floating value is cast to `0`; this is modelled by `Int.toNat` of the
  floor.
-/

namespace LSynth

/-- `channel.rs`: the fixed declick ramping rate (units per second). -/
def RAMPING_RATE : ℚ := 500

/-- `channel.rs`: leak factor for the Brownian noise integration. -/
def BROWNIAN_LEAK : ℚ := 10000

/-- `waveform.rs`: number of samples in a custom waveform. -/
def CUSTOM_WIDTH : ℕ := 32

/-- `waveform.rs`: a custom waveform is an array of 32 samples. -/
abbrev CustomWaveform := Fin CUSTOM_WIDTH → ℚ

/-- Rust `value.clamp(lo, hi)` (for `lo ≤ hi`): below `lo` gives `lo`, above
`hi` gives `hi`, otherwise the value itself. -/
def rclamp (x lo hi : ℚ) : ℚ := min (max x lo) hi

/-- Truncation toward zero, as performed by the Rust float remainder. -/
def qtrunc (a : ℚ) : ℤ := if 0 ≤ a then ⌊a⌋ else ⌈a⌉

/-- Rust `a % 1.0` on floats: exact remainder `a - trunc(a)`, which takes the
sign of the dividend. -/
def rustRem1 (a : ℚ) : ℚ := a - qtrunc a

/-- `waveform::sine`: `sin(period · TAU)`. -/
noncomputable def sine (period : ℚ) : ℝ :=
  Real.sin (period * (2 * Real.pi))

/-- `waveform::triangle`: `-(period - 0.5).abs() * 4.0 + 1.0`. -/
def triangle (period : ℚ) : ℚ :=
  -|period - 1/2| * 4 + 1

/-- `waveform::rec_sine`: truncated sine rescaled to [-1,1]. -/
noncomputable def rec_sine (period : ℚ) : ℝ :=
  if period < 1/2 then Real.sin (period * (2 * Real.pi)) * 2 - 1 else -1

/-- `waveform::saw`: `period * 2.0 - 1.0`. -/
def saw (period : ℚ) : ℚ := period * 2 - 1

/-- `waveform::square`: `1.0` below a half period, `-1.0` after. -/
def square (period : ℚ) : ℚ := if period < 1/2 then 1 else -1

/-- `waveform::pulse`: `1.0` below a quarter period, `-1.0` after. -/
def pulse (period : ℚ) : ℚ := if period < 1/4 then 1 else -1

/-- `waveform::custom`: index computed as `(period * 32).floor() as usize`;
the saturating cast maps negative floors to 0.  The array access panics
(modelled by `none`) when the index is 32 or more. -/
def customIndex (period : ℚ) : ℕ := (⌊period * (CUSTOM_WIDTH : ℚ)⌋).toNat

/-- `waveform::custom`: sample the custom table at `customIndex`. -/
def custom (period : ℚ) (data : CustomWaveform) : Option ℚ :=
  if h : customIndex period < CUSTOM_WIDTH then some (data ⟨customIndex period, h⟩)
  else none

/-- `channel.rs`: the full per-channel parameter set. -/
structure ChannelState where
  period : ℚ
  waveform : ℕ
  custom_waveform : CustomWaveform
  frequency : ℚ
  amplitude : ℚ
  panning : ℚ
  ramped_amplitude : ℚ
  ramped_panning : ℚ
  frequency_slide_target : ℚ
  amplitude_slide_target : ℚ
  panning_slide_target : ℚ
  frequency_rate : ℚ
  amplitude_rate : ℚ
  panning_rate : ℚ
  noise_sample : ℚ

/-- `ChannelState::new`. -/
def ChannelState.new : ChannelState where
  period := 0
  waveform := 0
  custom_waveform := fun _ => 0
  frequency := 440
  amplitude := 0
  panning := 0
  ramped_amplitude := 0
  ramped_panning := 0
  frequency_slide_target := 440
  amplitude_slide_target := 0
  panning_slide_target := 0
  frequency_rate := 0
  amplitude_rate := 0
  panning_rate := 0
  noise_sample := 0

/-- The match over waveform indices inside `ChannelState::sample`, producing
the raw (pre-amplitude) sample.  `none` models the panic that the custom
waveform indexing would raise out of bounds. -/
noncomputable def rawSample (s : ChannelState) : Option ℝ :=
  match s.waveform with
  | 0 => some (sine s.period)
  | 1 => some ((triangle s.period : ℚ) : ℝ)
  | 2 => some (rec_sine s.period)
  | 3 => some ((saw s.period : ℚ) : ℝ)
  | 4 => some ((square s.period : ℚ) : ℝ)
  | 5 => some ((pulse s.period : ℚ) : ℝ)
  | 6 => some ((s.noise_sample : ℚ) : ℝ)
  | 7 => (custom s.period s.custom_waveform).map (fun q => (q : ℝ))
  | _ => some 0

/-- `ChannelState::sample`: raw waveform value times `ramped_amplitude`, then
split to stereo with the clamped linear pan law. -/
noncomputable def sample (s : ChannelState) : Option (ℝ × ℝ) :=
  (rawSample s).map fun w =>
    let sample_output := w * (s.ramped_amplitude : ℝ)
    (sample_output * min (-(s.ramped_panning : ℝ) + 1) 1,
     sample_output * min ((s.ramped_panning : ℝ) + 1) 1)

/-- `fn approach`: advance `value` toward `target` by at most `|step|`. -/
def approach (value target step : ℚ) : ℚ :=
  value + max (min (target - value) |step|) (-|step|)

/-- The `while period >= 1.0` loop of `ChannelState::advance` for the noise
waveform: regenerate the Brownian noise sample once per wrap, threading the
noise stream cursor.  The factor `c` is the loop-invariant
`1.0 - BROWNIAN_LEAK * step`. -/
def noiseLoop (c : ℚ) (ns : ℕ → ℚ) (period noise_sample : ℚ) (i : ℕ) :
    ℚ × ℚ × ℕ :=
  if h : 1 ≤ period then
    noiseLoop c ns (period - 1) ((noise_sample + ns i) * c) (i + 1)
  else
    (period, noise_sample, i)
termination_by (⌊period⌋).toNat
decreasing_by
  have h1 : (1 : ℤ) ≤ ⌊period⌋ := Int.le_floor.mpr (by exact_mod_cast h)
  have h2 : ⌊period - 1⌋ = ⌊period⌋ - 1 := by
    exact_mod_cast Int.floor_sub_int period (1 : ℤ)
  omega

/-- `ChannelState::advance`: accumulate phase, regenerate noise on wraps,
fold the phase into [0,1), then relax the five slewed quantities.  Returns
the updated state together with the new noise-stream cursor. -/
def advance (s : ChannelState) (step : ℚ) (ns : ℕ → ℚ) (i : ℕ) :
    ChannelState × ℕ :=
  let p0 := s.period + s.frequency * step
  let t :=
    if s.waveform = 6 then
      noiseLoop (1 - BROWNIAN_LEAK * step) ns p0 s.noise_sample i
    else (p0, s.noise_sample, i)
  let p1 := t.1
  let p2 := p1 - (⌊p1⌋ : ℚ)
  ({ s with
      period := p2
      noise_sample := t.2.1
      ramped_amplitude := approach s.ramped_amplitude s.amplitude (RAMPING_RATE * step)
      ramped_panning := approach s.ramped_panning s.panning (RAMPING_RATE * step)
      frequency := approach s.frequency s.frequency_slide_target (s.frequency_rate * step)
      amplitude := approach s.amplitude s.amplitude_slide_target (s.amplitude_rate * step)
      panning := approach s.panning s.panning_slide_target (s.panning_rate * step) },
   t.2.2)

/-- `lib.rs`: the command set. -/
inductive Command where
  | SetWaveform (value : ℕ)
  | SetFrequency (value : ℚ)
  | SetAmplitude (value : ℚ)
  | SetPanning (value : ℚ)
  | SetCustomWaveform (w : CustomWaveform)
  | SetPhase (value : ℚ)
  | ForceSetAmplitude (value : ℚ)
  | ForceSetPanning (value : ℚ)
  | FrequencySlide (value rate : ℚ)
  | AmplitudeSlide (value rate : ℚ)
  | PanningSlide (value rate : ℚ)

/-- `errors.rs`: the closed error taxonomy. -/
inductive LSynthError where
  | InvalidWaveform (attempted_waveform : ℕ)
  | InvalidChannel (attempted_channel max_channels_of_chip : ℕ)
  | UnevenBufferSlice (slice_length : ℕ)
deriving DecidableEq

/-- `ChannelState::execute_command`: Rust mutates `&mut self` and returns a
`Result<(), LSynthError>`; modelled as the updated state paired with
`none` for `Ok(())` and `some e` for `Err(e)` (the state is returned
unchanged in the error case, as in the source). -/
def execute_command (s : ChannelState) (c : Command) :
    ChannelState × Option LSynthError :=
  match c with
  | .ForceSetAmplitude value =>
    let v := rclamp value 0 1
    ({ s with amplitude := v, ramped_amplitude := v, amplitude_slide_target := v }, none)
  | .SetAmplitude value =>
    let v := rclamp value 0 1
    ({ s with amplitude := v, amplitude_slide_target := v }, none)
  | .AmplitudeSlide value rate =>
    let v := rclamp value 0 1
    ({ s with amplitude_slide_target := v, amplitude_rate := rate }, none)
  | .SetFrequency value =>
    let v := max value 0
    ({ s with frequency := v, frequency_slide_target := v }, none)
  | .FrequencySlide value rate =>
    let v := max value 0
    ({ s with frequency_slide_target := v, frequency_rate := rate }, none)
  | .ForceSetPanning value =>
    let v := rclamp value (-1) 1
    ({ s with panning := v, ramped_panning := v, panning_slide_target := v }, none)
  | .SetPanning value =>
    let v := rclamp value (-1) 1
    ({ s with panning := v, panning_slide_target := v }, none)
  | .PanningSlide value rate =>
    let v := rclamp value (-1) 1
    ({ s with panning_slide_target := v, panning_rate := rate }, none)
  | .SetWaveform value =>
    if 7 < value then (s, some (.InvalidWaveform value))
    else ({ s with waveform := value }, none)
  | .SetCustomWaveform w =>
    ({ s with custom_waveform := fun j => rclamp (w j) (-1) 1 }, none)
  | .SetPhase value =>
    ({ s with period := rustRem1 value }, none)

/-- `lib.rs`: chip-wide parameters. -/
structure ChipParameters where
  samplerate : ℕ
  timestep : ℚ
  amplitude : ℚ
  tick_rate : ℚ
  tick_frames : ℚ

/-- `ChipParameters::new`. -/
def ChipParameters.new (samplerate : ℕ) (amplitude tick_rate : ℚ) :
    ChipParameters where
  samplerate := samplerate
  timestep := 1 / (samplerate : ℚ)
  amplitude := amplitude
  tick_rate := tick_rate
  tick_frames := (samplerate : ℚ) / tick_rate

/-- `ChipParameters::get_tick_frames`. -/
def ChipParameters.get_tick_frames (p : ChipParameters) : ℚ := p.tick_frames

/-- `lib.rs`: the result record of `ChipState::generate`. -/
structure ChipGenerationData where
  generated : ℕ
  remaining_samples : ℕ
deriving DecidableEq

/-- `lib.rs`: the chip state. -/
structure ChipState where
  channels : List ChannelState
  parameters : ChipParameters
  remaining_frames : ℚ

/-- `ChipState::new`. -/
def ChipState.new (channel_count : ℕ) (parameters : ChipParameters) :
    ChipState where
  channels := List.replicate channel_count ChannelState.new
  parameters := parameters
  remaining_frames := 0

/-- The per-channel loop of `ChipState::generate`: fill `n` slots by
sampling then advancing by the timestep.  `none` models a panic inside
sampling. -/
noncomputable def channelRun (timestep : ℚ) (ns : ℕ → ℚ) :
    ℕ → ChannelState → ℕ → Option (List (ℝ × ℝ) × ChannelState × ℕ)
  | 0, ch, i => some ([], ch, i)
  | n + 1, ch, i =>
    match sample ch with
    | none => none
    | some v =>
      let a := advance ch timestep ns i
      match channelRun timestep ns n a.1 a.2 with
      | none => none
      | some (rest, chf, jf) => some (v :: rest, chf, jf)

/-- The parallel fan-out of `ChipState::generate`: run every channel for the
same number of frames; channel `j` draws from its own noise stream `ns j`
(a model of the shared random source split across worker threads). -/
noncomputable def runChannels (timestep : ℚ) (n : ℕ) (ns : ℕ → ℕ → ℚ) :
    ℕ → List ChannelState → Option (List (List (ℝ × ℝ)) × List ChannelState)
  | _, [] => some ([], [])
  | j, ch :: rest =>
    match channelRun timestep (ns j) n ch 0 with
    | none => none
    | some (frames, chf, _) =>
      match runChannels timestep n ns (j + 1) rest with
      | none => none
      | some (fs, chs) => some (frames :: fs, chf :: chs)

/-- The inner mixing fold of `ChipState::generate`: starting from the
zeroed frame, add each channel's frame `i` scaled by the global amplitude.
`none` models the panic of indexing a channel vector out of bounds. -/
noncomputable def sumFrame (amp : ℚ) (i : ℕ) :
    List (List (ℝ × ℝ)) → ℝ × ℝ → Option (ℝ × ℝ)
  | [], acc => some acc
  | f :: rest, acc =>
    match f[i]? with
    | none => none
    | some (l, r) => sumFrame amp i rest (acc.1 + l * (amp : ℝ), acc.2 + r * (amp : ℝ))

/-- The output loop of `ChipState::generate`: walk the buffer two samples at
a time, overwriting the first `frames` stereo frames with the mixed sums and
breaking (leaving the rest untouched) once `frames` frames are written.
A trailing chunk of a single sample would panic (`none`) if reached before
the break. -/
noncomputable def writeFrames (amp : ℚ) (fvs : List (List (ℝ × ℝ))) (frames : ℕ) :
    ℕ → List ℝ → Option (List ℝ)
  | _, [] => some []
  | i, [a] => if i < frames then none else some [a]
  | i, a :: b :: rest =>
    if i < frames then
      match sumFrame amp i fvs (0, 0) with
      | none => none
      | some (l, r) =>
        match writeFrames amp fvs frames (i + 1) rest with
        | none => none
        | some out => some (l :: r :: out)
    else some (a :: b :: rest)

/-- The lazy tick top-up at the start of `ChipState::generate`. -/
def topped (chip : ChipState) : ℚ :=
  if chip.remaining_frames < 1 then
    chip.remaining_frames + chip.parameters.get_tick_frames
  else chip.remaining_frames

/-- `frames_to_generate` of `ChipState::generate`: the saturating cast of
the floored frame budget, capped by the buffer capacity. -/
def framesFor (chip : ChipState) (len : ℕ) : ℕ :=
  min ((⌊topped chip⌋).toNat) (len / 2)

/-- `ChipState::generate`: validate the buffer length, top up the tick
budget, synthesize each channel, mix into the buffer and update the
fractional frame accounting.  Returns the updated chip, the updated buffer
and either the generation data or the validation error; the outer `none`
models a panic. -/
noncomputable def generate (chip : ChipState) (buffer : List ℝ) (ns : ℕ → ℕ → ℚ) :
    Option (ChipState × List ℝ × Except LSynthError ChipGenerationData) :=
  if buffer.length % 2 ≠ 0 then
    some (chip, buffer, Except.error (LSynthError.UnevenBufferSlice buffer.length))
  else
    let timestep := chip.parameters.timestep
    let frames_to_generate := framesFor chip buffer.length
    match runChannels timestep frames_to_generate ns 0 chip.channels with
    | none => none
    | some (frame_vecs, chs) =>
      match writeFrames chip.parameters.amplitude frame_vecs frames_to_generate 0 buffer with
      | none => none
      | some buffer2 =>
        let rem2 := topped chip - (frames_to_generate : ℚ)
        some ({ chip with channels := chs, remaining_frames := rem2 }, buffer2,
          Except.ok { generated := frames_to_generate * 2,
                      remaining_samples := (⌊rem2⌋).toNat * 2 })

/-- Iterated `advance` over a list of (step, noise stream, cursor) inputs. -/
def advanceMany (s : ChannelState) :
    List (ℚ × (ℕ → ℚ) × ℕ) → ChannelState
  | [] => s
  | x :: rest => advanceMany (advance s x.1 x.2.1 x.2.2).1 rest

/-- The range predicate asserted by the specification for channel state:
amplitudes in [0,1], pannings in [-1,1], nonnegative frequency, waveform
index at most 7, custom table entries in [-1,1]. -/
def ChannelRanges (s : ChannelState) : Prop :=
  0 ≤ s.amplitude ∧ s.amplitude ≤ 1 ∧
  0 ≤ s.ramped_amplitude ∧ s.ramped_amplitude ≤ 1 ∧
  -1 ≤ s.panning ∧ s.panning ≤ 1 ∧
  -1 ≤ s.ramped_panning ∧ s.ramped_panning ≤ 1 ∧
  0 ≤ s.frequency ∧
  s.waveform ≤ 7 ∧
  ∀ j : Fin CUSTOM_WIDTH, -1 ≤ s.custom_waveform j ∧ s.custom_waveform j ≤ 1

/-- The strengthened, inductive channel invariant: the specified ranges
plus the matching ranges for the slide targets. -/
def ChannelInv (s : ChannelState) : Prop :=
  ChannelRanges s ∧
  0 ≤ s.amplitude_slide_target ∧ s.amplitude_slide_target ≤ 1 ∧
  -1 ≤ s.panning_slide_target ∧ s.panning_slide_target ≤ 1 ∧
  0 ≤ s.frequency_slide_target

/-- Channel states reachable from a fresh channel through commands and
time steps; `advance` steps are nonnegative and noise values come from
`random * 2 - 1` with `random ∈ [0,1)`. -/
inductive Reachable : ChannelState → Prop where
  | new : Reachable ChannelState.new
  | cmd (s : ChannelState) (c : Command) :
      Reachable s → Reachable (execute_command s c).1
  | adv (s : ChannelState) (step : ℚ) (ns : ℕ → ℚ) (i : ℕ) :
      Reachable s → 0 ≤ step → (∀ k, -1 ≤ ns k ∧ ns k < 1) →
      Reachable (advance s step ns i).1

/-- Modelled from the claim wording of C3: a generic clamp. -/
def clampSpec (x lo hi : ℚ) : ℚ := max lo (min x hi)

/-- Modelled from the claim wording of C3:
`approach(value, target, max_delta) = value + clamp(target - value, -|max_delta|, |max_delta|)`. -/
def approachSpec (value target max_delta : ℚ) : ℚ :=
  value + clampSpec (target - value) (-|max_delta|) |max_delta|

/-- Modelled from the claim wording of C3: while `period ≥ 1`, set
`noise_sample := (noise_sample + noise()) * (1 - BROWNIAN_LEAK * step)`
calling `noise()` exactly once per iteration, and subtract 1 from the
period. -/
def noiseLoopSpec (c : ℚ) (ns : ℕ → ℚ) (period noise_sample : ℚ) (i : ℕ) :
    ℚ × ℚ × ℕ :=
  if h : 1 ≤ period then
    noiseLoopSpec c ns (period - 1) ((noise_sample + ns i) * c) (i + 1)
  else
    (period, noise_sample, i)
termination_by (⌊period⌋).toNat
decreasing_by
  have h1 : (1 : ℤ) ≤ ⌊period⌋ := Int.le_floor.mpr (by exact_mod_cast h)
  have h2 : ⌊period - 1⌋ = ⌊period⌋ - 1 := by
    exact_mod_cast Int.floor_sub_int period (1 : ℤ)
  omega

/-- Modelled from the claim wording of C3: the advance algorithm exactly as
the claim states it, in the stated order. -/
def advanceSpec (s : ChannelState) (step : ℚ) (ns : ℕ → ℚ) (i : ℕ) :
    ChannelState × ℕ :=
  let p0 := s.period + s.frequency * step
  let t :=
    if s.waveform = 6 then
      noiseLoopSpec (1 - BROWNIAN_LEAK * step) ns p0 s.noise_sample i
    else (p0, s.noise_sample, i)
  let p1 := t.1
  let p2 := p1 - (⌊p1⌋ : ℚ)
  ({ s with
      period := p2
      noise_sample := t.2.1
      ramped_amplitude := approachSpec s.ramped_amplitude s.amplitude (RAMPING_RATE * step)
      ramped_panning := approachSpec s.ramped_panning s.panning (RAMPING_RATE * step)
      frequency := approachSpec s.frequency s.frequency_slide_target (s.frequency_rate * step)
      amplitude := approachSpec s.amplitude s.amplitude_slide_target (s.amplitude_rate * step)
      panning := approachSpec s.panning s.panning_slide_target (s.panning_rate * step) },
   t.2.2)

/-- A concrete reachable channel trace: select the noise waveform, force full
amplitude, set a high frequency, then advance once with a small step during
which the phase wraps twice. -/
def noisyTrace : ChannelState :=
  (advance
    (execute_command
      (execute_command
        (execute_command ChannelState.new (Command.SetWaveform 6)).1
        (Command.ForceSetAmplitude 1)).1
      (Command.SetFrequency 2000000)).1
    (1/1000000) (fun _ => 9/10) 0).1

/-- A concrete channel trace: select the custom waveform, then set the phase
directly. -/
def phaseTrace (p : ℚ) : ChannelState :=
  (execute_command
    (execute_command ChannelState.new (Command.SetWaveform 7)).1
    (Command.SetPhase p)).1

/-! ## Helper lemmas -/

theorem approach_eq_approachSpec (v t d : ℚ) : approach v t d = approachSpec v t d := by
  unfold approach approachSpec clampSpec
  rw [max_comm]

theorem approach_between (v t d : ℚ) :
    min v t ≤ approach v t d ∧ approach v t d ≤ max v t := by
  have hd : (0 : ℚ) ≤ |d| := abs_nonneg d
  unfold approach
  rcases le_total v t with h | h
  · have h2 : max (min (t - v) |d|) (-|d|) = min (t - v) |d| :=
      max_eq_left (by have := le_min (show (0:ℚ) ≤ t - v by linarith) hd; linarith)
    rw [h2]
    refine ⟨?_, ?_⟩
    · have h3 := le_min (show (0:ℚ) ≤ t - v by linarith) hd
      have h4 := min_le_left v t
      linarith
    · have h3 : min (t - v) |d| ≤ t - v := min_le_left _ _
      have h4 := le_max_right v t
      linarith
  · have h1 : min (t - v) |d| = t - v := min_eq_left (by linarith)
    rw [h1]
    refine ⟨?_, ?_⟩
    · have h2 : t - v ≤ max (t - v) (-|d|) := le_max_left _ _
      have h3 := min_le_right v t
      linarith
    · have h2 : max (t - v) (-|d|) ≤ 0 := max_le (by linarith) (by linarith)
      have h3 := le_max_left v t
      linarith

theorem abs_approach_sub_le (v t d : ℚ) : |approach v t d - v| ≤ |d| := by
  have hd : (0 : ℚ) ≤ |d| := abs_nonneg d
  unfold approach
  rw [abs_le]
  refine ⟨?_, ?_⟩
  · have h1 := le_max_right (min (t - v) |d|) (-|d|)
    linarith
  · have h1 : min (t - v) |d| ≤ |d| := min_le_right _ _
    have h2 : max (min (t - v) |d|) (-|d|) ≤ |d| := max_le h1 (by linarith)
    linarith

theorem noiseLoop_idx (c : ℚ) (ns : ℕ → ℚ) (p x : ℚ) (i : ℕ) :
    (noiseLoop c ns p x i).2.2 = i + (⌊p⌋).toNat := by
  induction p, x, i using noiseLoop.induct c ns with
  | case1 p x i h ih =>
    rw [noiseLoop, dif_pos h, ih]
    have h1 : (1 : ℤ) ≤ ⌊p⌋ := Int.le_floor.mpr (by exact_mod_cast h)
    have h2 : ⌊p - 1⌋ = ⌊p⌋ - 1 := by
      exact_mod_cast Int.floor_sub_int p (1 : ℤ)
    omega
  | case2 p x i h =>
    rw [noiseLoop, dif_neg h]
    show i = i + (⌊p⌋).toNat
    have h2 : ⌊p⌋ < 1 := Int.floor_lt.mpr (by push_cast; linarith [not_le.mp h])
    omega

theorem noiseLoop_eq_noiseLoopSpec (c : ℚ) (ns : ℕ → ℚ) (p x : ℚ) (i : ℕ) :
    noiseLoop c ns p x i = noiseLoopSpec c ns p x i := by
  induction p, x, i using noiseLoop.induct c ns with
  | case1 p x i h ih =>
    rw [noiseLoop, noiseLoopSpec, dif_pos h, dif_pos h]
    exact ih
  | case2 p x i h =>
    rw [noiseLoop, noiseLoopSpec, dif_neg h, dif_neg h]

theorem customIndex_lt (p : ℚ) (h : p < 1) : customIndex p < CUSTOM_WIDTH := by
  have hw : (0 : ℚ) < ((CUSTOM_WIDTH : ℕ) : ℚ) := by norm_num [CUSTOM_WIDTH]
  have h1 : p * ((CUSTOM_WIDTH : ℕ) : ℚ) < ((CUSTOM_WIDTH : ℕ) : ℚ) := by nlinarith
  have h2 : ⌊p * ((CUSTOM_WIDTH : ℕ) : ℚ)⌋ < (CUSTOM_WIDTH : ℤ) := by
    apply Int.floor_lt.mpr
    exact_mod_cast h1
  have h0 : 0 < CUSTOM_WIDTH := by norm_num [CUSTOM_WIDTH]
  unfold customIndex
  omega

theorem custom_eq_of_lt_one (p : ℚ) (data : CustomWaveform) (h : p < 1) :
    custom p data = some (data ⟨customIndex p, customIndex_lt p h⟩) := by
  unfold custom
  rw [dif_pos (customIndex_lt p h)]

theorem rawSample_isSome (s : ChannelState) (h : s.period < 1) :
    ∃ v, rawSample s = some v := by
  unfold rawSample
  split
  · exact ⟨_, rfl⟩
  · exact ⟨_, rfl⟩
  · exact ⟨_, rfl⟩
  · exact ⟨_, rfl⟩
  · exact ⟨_, rfl⟩
  · exact ⟨_, rfl⟩
  · exact ⟨_, rfl⟩
  · rw [custom_eq_of_lt_one s.period s.custom_waveform h]
    exact ⟨_, rfl⟩
  · exact ⟨_, rfl⟩

theorem sample_isSome (s : ChannelState) (h : s.period < 1) :
    ∃ v, sample s = some v := by
  obtain ⟨w, hw⟩ := rawSample_isSome s h
  exact ⟨_, by rw [sample, hw]; rfl⟩

theorem advance_period_mem (s : ChannelState) (step : ℚ) (ns : ℕ → ℚ) (i : ℕ) :
    0 ≤ ((advance s step ns i).1).period ∧ ((advance s step ns i).1).period < 1 :=
  ⟨Int.fract_nonneg _, Int.fract_lt_one _⟩

theorem rclamp_mem (x lo hi : ℚ) (h : lo ≤ hi) :
    lo ≤ rclamp x lo hi ∧ rclamp x lo hi ≤ hi := by
  unfold rclamp
  exact ⟨le_min (le_max_right x lo) h, min_le_right _ _⟩

theorem inv_new : ChannelInv ChannelState.new := by
  refine ⟨⟨?_, ?_, ?_, ?_, ?_, ?_, ?_, ?_, ?_, ?_, fun j => ⟨?_, ?_⟩⟩, ?_, ?_, ?_, ?_, ?_⟩ <;>
    norm_num [ChannelState.new]

theorem inv_execute_command (s : ChannelState) (c : Command) (h : ChannelInv s) :
    ChannelInv (execute_command s c).1 := by
  obtain ⟨⟨h1, h2, h3, h4, h5, h6, h7, h8, h9, h10, h11⟩, h12, h13, h14, h15, h16⟩ := h
  cases c with
  | ForceSetAmplitude v =>
    have hc := rclamp_mem v 0 1 (by norm_num)
    exact ⟨⟨hc.1, hc.2, hc.1, hc.2, h5, h6, h7, h8, h9, h10, h11⟩, hc.1, hc.2, h14, h15, h16⟩
  | SetAmplitude v =>
    have hc := rclamp_mem v 0 1 (by norm_num)
    exact ⟨⟨hc.1, hc.2, h3, h4, h5, h6, h7, h8, h9, h10, h11⟩, hc.1, hc.2, h14, h15, h16⟩
  | AmplitudeSlide v rate =>
    have hc := rclamp_mem v 0 1 (by norm_num)
    exact ⟨⟨h1, h2, h3, h4, h5, h6, h7, h8, h9, h10, h11⟩, hc.1, hc.2, h14, h15, h16⟩
  | SetFrequency v =>
    exact ⟨⟨h1, h2, h3, h4, h5, h6, h7, h8, le_max_right v 0, h10, h11⟩,
      h12, h13, h14, h15, le_max_right v 0⟩
  | FrequencySlide v rate =>
    exact ⟨⟨h1, h2, h3, h4, h5, h6, h7, h8, h9, h10, h11⟩,
      h12, h13, h14, h15, le_max_right v 0⟩
  | ForceSetPanning v =>
    have hc := rclamp_mem v (-1) 1 (by norm_num)
    exact ⟨⟨h1, h2, h3, h4, hc.1, hc.2, hc.1, hc.2, h9, h10, h11⟩, h12, h13, hc.1, hc.2, h16⟩
  | SetPanning v =>
    have hc := rclamp_mem v (-1) 1 (by norm_num)
    exact ⟨⟨h1, h2, h3, h4, hc.1, hc.2, h7, h8, h9, h10, h11⟩, h12, h13, hc.1, hc.2, h16⟩
  | PanningSlide v rate =>
    have hc := rclamp_mem v (-1) 1 (by norm_num)
    exact ⟨⟨h1, h2, h3, h4, h5, h6, h7, h8, h9, h10, h11⟩, h12, h13, hc.1, hc.2, h16⟩
  | SetWaveform v =>
    by_cases hv : 7 < v
    · simp only [execute_command, if_pos hv]
      exact ⟨⟨h1, h2, h3, h4, h5, h6, h7, h8, h9, h10, h11⟩, h12, h13, h14, h15, h16⟩
    · simp only [execute_command, if_neg hv]
      exact ⟨⟨h1, h2, h3, h4, h5, h6, h7, h8, h9, not_lt.mp hv, h11⟩, h12, h13, h14, h15, h16⟩
  | SetCustomWaveform w =>
    exact ⟨⟨h1, h2, h3, h4, h5, h6, h7, h8, h9, h10,
      fun j => rclamp_mem (w j) (-1) 1 (by norm_num)⟩, h12, h13, h14, h15, h16⟩
  | SetPhase v =>
    exact ⟨⟨h1, h2, h3, h4, h5, h6, h7, h8, h9, h10, h11⟩, h12, h13, h14, h15, h16⟩

theorem inv_advance (s : ChannelState) (step : ℚ) (ns : ℕ → ℚ) (i : ℕ)
    (h : ChannelInv s) : ChannelInv (advance s step ns i).1 := by
  obtain ⟨⟨h1, h2, h3, h4, h5, h6, h7, h8, h9, h10, h11⟩, h12, h13, h14, h15, h16⟩ := h
  have hra := approach_between s.ramped_amplitude s.amplitude (RAMPING_RATE * step)
  have hrp := approach_between s.ramped_panning s.panning (RAMPING_RATE * step)
  have hfr := approach_between s.frequency s.frequency_slide_target (s.frequency_rate * step)
  have ham := approach_between s.amplitude s.amplitude_slide_target (s.amplitude_rate * step)
  have hpa := approach_between s.panning s.panning_slide_target (s.panning_rate * step)
  exact ⟨⟨le_trans (le_min h1 h12) ham.1, le_trans ham.2 (max_le h2 h13),
    le_trans (le_min h3 h1) hra.1, le_trans hra.2 (max_le h4 h2),
    le_trans (le_min h5 h14) hpa.1, le_trans hpa.2 (max_le h6 h15),
    le_trans (le_min h7 h5) hrp.1, le_trans hrp.2 (max_le h8 h6),
    le_trans (le_min h9 h16) hfr.1, h10, h11⟩, h12, h13, h14, h15, h16⟩

theorem reachable_inv (s : ChannelState) (h : Reachable s) : ChannelInv s := by
  induction h with
  | new => exact inv_new
  | cmd s c _ ih => exact inv_execute_command s c ih
  | adv s step ns i _ hstep hns ih => exact inv_advance s step ns i ih

theorem abs_sine_le_one (p : ℚ) : |sine p| ≤ 1 := by
  unfold sine
  exact abs_le.mpr ⟨Real.neg_one_le_sin _, Real.sin_le_one _⟩

theorem abs_triangle_le_one (p : ℚ) (h0 : 0 ≤ p) (h1 : p < 1) : |triangle p| ≤ 1 := by
  unfold triangle
  have ha : |p - 1/2| ≤ 1/2 := abs_le.mpr ⟨by linarith, by linarith⟩
  have hb : (0 : ℚ) ≤ |p - 1/2| := abs_nonneg _
  rw [abs_le]
  constructor <;> linarith

theorem abs_rec_sine_le_one (p : ℚ) (h0 : 0 ≤ p) : |rec_sine p| ≤ 1 := by
  unfold rec_sine
  split
  · next h =>
      have hp0 : (0 : ℝ) ≤ (p : ℝ) := by exact_mod_cast h0
      have hp2 : (p : ℝ) ≤ 1/2 := by
        have h2 : (p : ℝ) < ((1/2 : ℚ) : ℝ) := by exact_mod_cast h
        norm_num at h2
        exact le_of_lt h2
      have hs1 : Real.sin ((p : ℝ) * (2 * Real.pi)) ≤ 1 := Real.sin_le_one _
      have hs0 : 0 ≤ Real.sin ((p : ℝ) * (2 * Real.pi)) := by
        apply Real.sin_nonneg_of_nonneg_of_le_pi
        · nlinarith [Real.pi_pos]
        · nlinarith [Real.pi_pos]
      rw [abs_le]
      constructor <;> linarith
  · norm_num

theorem abs_saw_le_one (p : ℚ) (h0 : 0 ≤ p) (h1 : p < 1) : |saw p| ≤ 1 := by
  unfold saw
  rw [abs_le]
  constructor <;> linarith

theorem abs_square_le_one (p : ℚ) : |square p| ≤ 1 := by
  unfold square
  split <;> norm_num

theorem abs_pulse_le_one (p : ℚ) : |pulse p| ≤ 1 := by
  unfold pulse
  split <;> norm_num

theorem rawSample_abs_le_one (s : ChannelState) (hw : s.waveform ≤ 5)
    (h0 : 0 ≤ s.period) (h1 : s.period < 1) :
    ∃ w, rawSample s = some w ∧ |w| ≤ 1 := by
  have hcase : s.waveform = 0 ∨ s.waveform = 1 ∨ s.waveform = 2 ∨ s.waveform = 3 ∨
      s.waveform = 4 ∨ s.waveform = 5 := by omega
  rcases hcase with h | h | h | h | h | h
  · exact ⟨_, by simp [rawSample, h], abs_sine_le_one s.period⟩
  · refine ⟨((triangle s.period : ℚ) : ℝ), by simp [rawSample, h], ?_⟩
    exact_mod_cast abs_triangle_le_one s.period h0 h1
  · exact ⟨_, by simp [rawSample, h], abs_rec_sine_le_one s.period h0⟩
  · refine ⟨((saw s.period : ℚ) : ℝ), by simp [rawSample, h], ?_⟩
    exact_mod_cast abs_saw_le_one s.period h0 h1
  · refine ⟨((square s.period : ℚ) : ℝ), by simp [rawSample, h], ?_⟩
    exact_mod_cast abs_square_le_one s.period
  · refine ⟨((pulse s.period : ℚ) : ℝ), by simp [rawSample, h], ?_⟩
    exact_mod_cast abs_pulse_le_one s.period

theorem sample_abs_le_one (s : ChannelState)
    (hA0 : 0 ≤ s.ramped_amplitude) (hA1 : s.ramped_amplitude ≤ 1)
    (hP0 : -1 ≤ s.ramped_panning) (hP1 : s.ramped_panning ≤ 1)
    (hw : s.waveform ≤ 5) (h0 : 0 ≤ s.period) (h1 : s.period < 1) :
    ∃ l r, sample s = some (l, r) ∧ |l| ≤ 1 ∧ |r| ≤ 1 := by
  obtain ⟨w, hweq, hwb⟩ := rawSample_abs_le_one s hw h0 h1
  have hA0r : (0 : ℝ) ≤ (s.ramped_amplitude : ℝ) := by exact_mod_cast hA0
  have hA1r : (s.ramped_amplitude : ℝ) ≤ 1 := by exact_mod_cast hA1
  have hP0r : (-1 : ℝ) ≤ (s.ramped_panning : ℝ) := by exact_mod_cast hP0
  have hP1r : (s.ramped_panning : ℝ) ≤ 1 := by exact_mod_cast hP1
  have hwabs : (0 : ℝ) ≤ |w| := abs_nonneg w
  have hgl0 : (0 : ℝ) ≤ min (-(s.ramped_panning : ℝ) + 1) 1 :=
    le_min (by linarith) zero_le_one
  have hgl1 : min (-(s.ramped_panning : ℝ) + 1) 1 ≤ 1 := min_le_right _ _
  have hgr0 : (0 : ℝ) ≤ min ((s.ramped_panning : ℝ) + 1) 1 :=
    le_min (by linarith) zero_le_one
  have hgr1 : min ((s.ramped_panning : ℝ) + 1) 1 ≤ 1 := min_le_right _ _
  have hwa : |w| * (s.ramped_amplitude : ℝ) ≤ 1 := by nlinarith
  have hwa0 : (0 : ℝ) ≤ |w| * (s.ramped_amplitude : ℝ) := mul_nonneg hwabs hA0r
  refine ⟨_, _, by rw [sample, hweq]; rfl, ?_, ?_⟩
  · rw [abs_mul, abs_mul, abs_of_nonneg hA0r, abs_of_nonneg hgl0]
    nlinarith [hwa, hwa0, hgl0, hgl1]
  · rw [abs_mul, abs_mul, abs_of_nonneg hA0r, abs_of_nonneg hgr0]
    nlinarith [hwa, hwa0, hgr0, hgr1]

theorem channelRun_some (timestep : ℚ) (ns : ℕ → ℚ) :
    ∀ (n : ℕ) (ch : ChannelState) (i : ℕ), ch.period < 1 →
      ∃ fr chf jf, channelRun timestep ns n ch i = some (fr, chf, jf) ∧ fr.length = n := by
  intro n
  induction n with
  | zero => exact fun ch i _ => ⟨[], ch, i, rfl, rfl⟩
  | succ n ih =>
    intro ch i hch
    obtain ⟨v, hv⟩ := sample_isSome ch hch
    obtain ⟨fr, chf, jf, hrun, hlen⟩ :=
      ih (advance ch timestep ns i).1 (advance ch timestep ns i).2
        (advance_period_mem ch timestep ns i).2
    refine ⟨v :: fr, chf, jf, ?_, by simp [hlen]⟩
    rw [channelRun, hv]
    simp only [hrun]

theorem runChannels_some (timestep : ℚ) (n : ℕ) (ns : ℕ → ℕ → ℚ) :
    ∀ (l : List ChannelState) (j : ℕ), (∀ ch ∈ l, ch.period < 1) →
      ∃ fvs chs, runChannels timestep n ns j l = some (fvs, chs) ∧
        ∀ f ∈ fvs, f.length = n := by
  intro l
  induction l with
  | nil => exact fun j _ => ⟨[], [], rfl, by simp⟩
  | cons ch rest ih =>
    intro j hl
    obtain ⟨fr, chf, jf, hrun, hlen⟩ :=
      channelRun_some timestep (ns j) n ch 0 (hl ch (by simp))
    obtain ⟨fvs, chs, hrest, hflen⟩ := ih (j + 1) (fun c hc => hl c (by simp [hc]))
    refine ⟨fr :: fvs, chf :: chs, ?_, ?_⟩
    · rw [runChannels, hrun]
      simp only [hrest]
    · intro f hf
      rcases List.mem_cons.mp hf with h | h
      · rw [h]; exact hlen
      · exact hflen f h

theorem sumFrame_some (amp : ℚ) (i : ℕ) :
    ∀ (fvs : List (List (ℝ × ℝ))) (acc : ℝ × ℝ), (∀ f ∈ fvs, i < f.length) →
      ∃ p, sumFrame amp i fvs acc = some p := by
  intro fvs
  induction fvs with
  | nil => exact fun acc _ => ⟨acc, rfl⟩
  | cons f rest ih =>
    intro acc hf
    have hi : i < f.length := hf f (by simp)
    have hget : f[i]? = some f[i] := List.getElem?_eq_getElem hi
    obtain ⟨p, hp⟩ := ih (acc.1 + f[i].1 * (amp : ℝ), acc.2 + f[i].2 * (amp : ℝ))
      (fun g hg => hf g (by simp [hg]))
    refine ⟨p, ?_⟩
    rw [sumFrame, hget]
    exact hp

theorem writeFrames_of_ge (amp : ℚ) (fvs : List (List (ℝ × ℝ))) (frames : ℕ)
    (i : ℕ) (buf : List ℝ) (h : frames ≤ i) :
    writeFrames amp fvs frames i buf = some buf := by
  match buf with
  | [] => rfl
  | [a] => rw [writeFrames, if_neg (by omega)]
  | a :: b :: rest => rw [writeFrames, if_neg (by omega)]

theorem writeFrames_some (amp : ℚ) (fvs : List (List (ℝ × ℝ))) (frames : ℕ)
    (hlen : ∀ f ∈ fvs, frames ≤ f.length) :
    ∀ (k : ℕ) (buf : List ℝ) (i : ℕ), frames ≤ i + k →
      frames ≤ i + buf.length / 2 → buf.length % 2 = 0 →
      ∃ out, writeFrames amp fvs frames i buf = some out := by
  intro k
  induction k with
  | zero =>
    intro buf i h1 _ _
    exact ⟨buf, writeFrames_of_ge amp fvs frames i buf (by omega)⟩
  | succ k ih =>
    intro buf i h1 h2 h3
    by_cases hi : i < frames
    · match buf with
      | [] => simp at h2; omega
      | [a] => simp at h3
      | a :: b :: rest =>
        obtain ⟨p, hp⟩ := sumFrame_some amp i fvs (0, 0)
          (fun f hf => lt_of_lt_of_le hi (hlen f hf))
        obtain ⟨out, hout⟩ := ih rest (i + 1) (by omega)
          (by simp at h2 ⊢; omega) (by simp at h3 ⊢; omega)
        refine ⟨p.1 :: p.2 :: out, ?_⟩
        rw [writeFrames, if_pos hi, hp]
        simp only [hout]
    · exact ⟨buf, writeFrames_of_ge amp fvs frames i buf (by omega)⟩

theorem generate_ok (chip : ChipState) (buffer : List ℝ) (ns : ℕ → ℕ → ℚ)
    (heven : buffer.length % 2 = 0) (hper : ∀ ch ∈ chip.channels, ch.period < 1) :
    ∃ chs buffer2,
      generate chip buffer ns =
        some ({ chip with
                  channels := chs
                  remaining_frames := topped chip - (framesFor chip buffer.length : ℚ) },
              buffer2,
              Except.ok { generated := framesFor chip buffer.length * 2,
                          remaining_samples :=
                            (⌊topped chip - (framesFor chip buffer.length : ℚ)⌋).toNat * 2 }) := by
  obtain ⟨fvs, chs, hrun, hflen⟩ :=
    runChannels_some chip.parameters.timestep (framesFor chip buffer.length) ns
      chip.channels 0 hper
  obtain ⟨buffer2, hwrite⟩ :=
    writeFrames_some chip.parameters.amplitude fvs (framesFor chip buffer.length)
      (fun f hf => le_of_eq (hflen f hf).symm)
      (framesFor chip buffer.length) buffer 0 (by omega)
      (by simp only [framesFor]; omega) heven
  refine ⟨chs, buffer2, ?_⟩
  rw [generate, if_neg (by omega)]
  simp only [hrun, hwrite]

theorem abs_ramped_advance_sub_le (s : ChannelState) (step : ℚ) (ns : ℕ → ℚ)
    (i : ℕ) (h : 0 ≤ step) :
    |((advance s step ns i).1).ramped_amplitude - s.ramped_amplitude| ≤
      RAMPING_RATE * step := by
  have h1 := abs_approach_sub_le s.ramped_amplitude s.amplitude (RAMPING_RATE * step)
  have h2 : |RAMPING_RATE * step| = RAMPING_RATE * step :=
    abs_of_nonneg (mul_nonneg (by norm_num [RAMPING_RATE]) h)
  have h3 : ((advance s step ns i).1).ramped_amplitude =
      approach s.ramped_amplitude s.amplitude (RAMPING_RATE * step) := rfl
  rw [h3]
  exact le_trans h1 (le_of_eq h2)

theorem advanceMany_ramped_bound :
    ∀ (L : List (ℚ × (ℕ → ℚ) × ℕ)) (s : ChannelState), (∀ x ∈ L, 0 ≤ x.1) →
      |(advanceMany s L).ramped_amplitude - s.ramped_amplitude| ≤
        RAMPING_RATE * (L.map Prod.fst).sum := by
  intro L
  induction L with
  | nil =>
    intro s _
    simp [advanceMany]
  | cons x rest ih =>
    intro s hL
    have hx : 0 ≤ x.1 := hL x (by simp)
    have h1 := abs_ramped_advance_sub_le s x.1 x.2.1 x.2.2 hx
    have h2 := ih (advance s x.1 x.2.1 x.2.2).1 (fun y hy => hL y (by simp [hy]))
    have h3 : advanceMany s (x :: rest) =
        advanceMany (advance s x.1 x.2.1 x.2.2).1 rest := rfl
    rw [h3]
    calc |(advanceMany (advance s x.1 x.2.1 x.2.2).1 rest).ramped_amplitude -
            s.ramped_amplitude|
        ≤ |(advanceMany (advance s x.1 x.2.1 x.2.2).1 rest).ramped_amplitude -
            ((advance s x.1 x.2.1 x.2.2).1).ramped_amplitude| +
          |((advance s x.1 x.2.1 x.2.2).1).ramped_amplitude - s.ramped_amplitude| :=
          abs_sub_le _ _ _
      _ ≤ RAMPING_RATE * (rest.map Prod.fst).sum + RAMPING_RATE * x.1 :=
          add_le_add h2 h1
      _ = RAMPING_RATE * ((x :: rest).map Prod.fst).sum := by
          simp [List.map_cons, List.sum_cons]
          ring

theorem rustRem1_neg_mem (p : ℚ) (hp : p < 0) :
    -1 < rustRem1 p ∧ rustRem1 p ≤ 0 := by
  unfold rustRem1 qtrunc
  rw [if_neg (not_le.mpr hp)]
  constructor
  · have h1 := Int.ceil_lt_add_one p
    linarith
  · have h1 := Int.le_ceil p
    linarith

theorem customIndex_eq_zero (p : ℚ) (hp : p ≤ 0) : customIndex p = 0 := by
  have h0 : (0 : ℚ) ≤ ((CUSTOM_WIDTH : ℕ) : ℚ) := by positivity
  have h1 : p * ((CUSTOM_WIDTH : ℕ) : ℚ) ≤ 0 := mul_nonpos_iff.mpr (Or.inr ⟨hp, h0⟩)
  have h2 : ⌊p * ((CUSTOM_WIDTH : ℕ) : ℚ)⌋ ≤ 0 := by
    have h3 : ⌊p * ((CUSTOM_WIDTH : ℕ) : ℚ)⌋ ≤ ⌊(0 : ℚ)⌋ := Int.floor_le_floor h1
    simpa using h3
  unfold customIndex
  omega

theorem rawSample_isSome_of_waveform_le_six (s : ChannelState) (hw : s.waveform ≤ 6) :
    ∃ v, rawSample s = some v := by
  unfold rawSample
  split <;> first
  | exact ⟨_, rfl⟩
  | omega

/-! ## Claim theorems -/

/-- C5: for every chip state and every buffer of odd length, `generate`
returns the `UnevenBufferSlice` error carrying that buffer length, writes
nothing to the buffer, and leaves the entire chip state unchanged. -/
theorem c5_odd_buffer_error (chip : ChipState) (buffer : List ℝ) (ns : ℕ → ℕ → ℚ)
    (h : buffer.length % 2 = 1) :
    generate chip buffer ns =
      some (chip, buffer, Except.error (LSynthError.UnevenBufferSlice buffer.length)) := by
  rw [generate, if_pos (by omega)]

/-- Witness for C5 at a concrete chip and a length-3 buffer. -/
theorem c5_odd_buffer_error_witness :
    (3 : ℕ) % 2 = 1 ∧
    generate (ChipState.new 1 (ChipParameters.new 44100 (1/2) 120)) [0, 0, 0]
        (fun _ _ => 0) =
      some (ChipState.new 1 (ChipParameters.new 44100 (1/2) 120), [0, 0, 0],
        Except.error (LSynthError.UnevenBufferSlice 3)) := by
  refine ⟨by norm_num, ?_⟩
  have h := c5_odd_buffer_error (ChipState.new 1 (ChipParameters.new 44100 (1/2) 120))
    [0, 0, 0] (fun _ _ => 0) (by simp)
  simpa using h

/-- C2: for an even-length buffer (and channel phases inside their domain,
nonnegative frame accounting), `generate` first tops up `remaining_frames`
by `tick_frames` when it is below one, produces
`frames = min(floor(remaining_frames), buffer_len/2)` stereo frames,
decreases `remaining_frames` by exactly `frames`, and returns
`generated = frames*2` (even and at most the buffer length) and
`remaining_samples = floor(remaining_frames after subtraction)*2`. -/
theorem c2_generate_accounting (chip : ChipState) (buffer : List ℝ) (ns : ℕ → ℕ → ℚ)
    (heven : buffer.length % 2 = 0)
    (hper : ∀ ch ∈ chip.channels, ch.period < 1)
    (hrem : 0 ≤ chip.remaining_frames)
    (htf : 0 ≤ chip.parameters.tick_frames)
    (rem1 : ℚ)
    (hrem1 : rem1 = if chip.remaining_frames < 1 then
        chip.remaining_frames + chip.parameters.tick_frames else chip.remaining_frames)
    (frames : ℕ)
    (hframes : (frames : ℤ) = min ⌊rem1⌋ ((buffer.length : ℤ) / 2)) :
    ∃ chip2 buffer2,
      generate chip buffer ns =
        some (chip2, buffer2,
          Except.ok { generated := frames * 2,
                      remaining_samples := (⌊rem1 - (frames : ℚ)⌋).toNat * 2 }) ∧
      chip2.remaining_frames = rem1 - (frames : ℚ) ∧
      ((⌊rem1 - (frames : ℚ)⌋).toNat : ℤ) = ⌊rem1 - (frames : ℚ)⌋ ∧
      frames * 2 % 2 = 0 ∧ frames * 2 ≤ buffer.length := by
  have htop : topped chip = rem1 := by
    rw [hrem1]
    rfl
  have hrem1p : 0 ≤ rem1 := by
    by_cases hc : chip.remaining_frames < 1
    · rw [hrem1, if_pos hc]
      linarith
    · rw [hrem1, if_neg hc]
      linarith
  have hfloor0 : 0 ≤ ⌊rem1⌋ := Int.floor_nonneg.mpr hrem1p
  have hcast : ((buffer.length / 2 : ℕ) : ℤ) = (buffer.length : ℤ) / 2 := by
    omega
  have hframesFor : framesFor chip buffer.length = frames := by
    unfold framesFor
    rw [htop]
    omega
  obtain ⟨chs, buffer2, hg⟩ := generate_ok chip buffer ns heven hper
  rw [hframesFor, htop] at hg
  have hfle : (frames : ℤ) ≤ ⌊rem1⌋ := by omega
  have hfleq : (frames : ℚ) ≤ rem1 := by
    calc (frames : ℚ) = ((frames : ℤ) : ℚ) := by push_cast; rfl
      _ ≤ (⌊rem1⌋ : ℚ) := by exact_mod_cast hfle
      _ ≤ rem1 := Int.floor_le rem1
  have hrem2 : 0 ≤ rem1 - (frames : ℚ) := by linarith
  have hfloor2 : 0 ≤ ⌊rem1 - (frames : ℚ)⌋ := Int.floor_nonneg.mpr hrem2
  refine ⟨_, buffer2, hg, rfl, by omega, by omega, ?_⟩
  have h2 : (frames : ℤ) ≤ (buffer.length : ℤ) / 2 := by omega
  omega

/-- Witness for C2 at a chip with no channels, tick budget 2, buffer of
length 2. -/
theorem c2_generate_accounting_witness :
    ∃ chip2 buffer2,
      generate { channels := [], parameters := ⟨4, 1/4, 1, 2, 2⟩, remaining_frames := 0 }
          [0, 0] (fun _ _ => 0) =
        some (chip2, buffer2,
          Except.ok { generated := 1 * 2,
                      remaining_samples := (⌊(2 : ℚ) - ((1 : ℕ) : ℚ)⌋).toNat * 2 }) ∧
      chip2.remaining_frames = (2 : ℚ) - ((1 : ℕ) : ℚ) ∧
      (((⌊(2 : ℚ) - ((1 : ℕ) : ℚ)⌋).toNat : ℤ)) = ⌊(2 : ℚ) - ((1 : ℕ) : ℚ)⌋ ∧
      1 * 2 % 2 = 0 ∧ 1 * 2 ≤ ([(0 : ℝ), 0]).length := by
  have h := c2_generate_accounting
    { channels := [], parameters := ⟨4, 1/4, 1, 2, 2⟩, remaining_frames := 0 }
    [0, 0] (fun _ _ => 0) (by simp) (by simp) le_rfl (by norm_num) 2
    (by norm_num) 1 (by norm_num)
  simpa using h

/-- C10: if `remaining_frames ≥ 0` and `tick_frames ≥ 1`, `generate` on an
even buffer of length at least 2 produces at least one stereo frame
(`generated ≥ 2`); and this precondition is necessary: a concrete chip with
`tick_frames = 1/2 < 1` gets `generated = 0` from a length-4 buffer, which
is returned unchanged. -/
theorem c10_generate_progress :
    (∀ (chip : ChipState) (buffer : List ℝ) (ns : ℕ → ℕ → ℚ),
      0 ≤ chip.remaining_frames → 1 ≤ chip.parameters.tick_frames →
      buffer.length % 2 = 0 → 2 ≤ buffer.length →
      (∀ ch ∈ chip.channels, ch.period < 1) →
      ∃ chip2 buffer2 d, generate chip buffer ns = some (chip2, buffer2, Except.ok d) ∧
        2 ≤ d.generated) ∧
    generate { channels := [], parameters := ⟨4, 1/4, 1, 8, 1/2⟩, remaining_frames := 0 }
        [0, 0, 0, 0] (fun _ _ => 0) =
      some ({ channels := [], parameters := ⟨4, 1/4, 1, 8, 1/2⟩, remaining_frames := 1/2 },
        [0, 0, 0, 0], Except.ok { generated := 0, remaining_samples := 0 }) := by
  constructor
  · intro chip buffer ns hrem htf heven hlen hper
    obtain ⟨chs, buffer2, hg⟩ := generate_ok chip buffer ns heven hper
    refine ⟨_, _, _, hg, ?_⟩
    show 2 ≤ framesFor chip buffer.length * 2
    have h1 : 1 ≤ topped chip := by
      unfold topped
      split
      · have : 0 ≤ chip.remaining_frames := hrem
        show 1 ≤ chip.remaining_frames + chip.parameters.get_tick_frames
        unfold ChipParameters.get_tick_frames
        linarith
      · linarith [not_lt.mp (by assumption : ¬ chip.remaining_frames < 1)]
    have h2 : 1 ≤ ⌊topped chip⌋ := Int.le_floor.mpr (by exact_mod_cast h1)
    unfold framesFor
    omega
  · rw [generate, if_neg (by norm_num)]
    have hf : framesFor
        { channels := [], parameters := ⟨4, 1/4, 1, 8, 1/2⟩, remaining_frames := 0 }
        ([(0 : ℝ), 0, 0, 0]).length = 0 := by
      unfold framesFor topped ChipParameters.get_tick_frames
      norm_num
    rw [hf]
    have ht : topped
        { channels := [], parameters := ⟨4, 1/4, 1, 8, 1/2⟩, remaining_frames := 0 } =
        1/2 := by
      unfold topped ChipParameters.get_tick_frames
      norm_num
    show some _ = _
    norm_num [runChannels, writeFrames, ht]

/-- Witness for C10's progress guarantee at a one-tick-per-frame chip with
no channels and a length-2 buffer. -/
theorem c10_generate_progress_witness :
    ∃ chip2 buffer2 d,
      generate { channels := [], parameters := ⟨4, 1/4, 1, 4, 1⟩, remaining_frames := 0 }
          [0, 0] (fun _ _ => 0) =
        some (chip2, buffer2, Except.ok d) ∧ 2 ≤ d.generated :=
  c10_generate_progress.1
    { channels := [], parameters := ⟨4, 1/4, 1, 4, 1⟩, remaining_frames := 0 }
    [0, 0] (fun _ _ => 0) le_rfl (by norm_num) (by simp) (by simp) (by simp)

/-- C7: `sample` is exactly the raw waveform value times `ramped_amplitude`
split by the clamped linear pan law `min(1, 1∓pan)`; each side's pan gain
never exceeds 1, and at full pan one side's gain is 0 while the other's is
exactly 1. -/
theorem c7_sample_pan_law (s : ChannelState) :
    sample s = (rawSample s).map (fun w =>
        (w * (s.ramped_amplitude : ℝ) * min 1 (1 - (s.ramped_panning : ℝ)),
         w * (s.ramped_amplitude : ℝ) * min 1 (1 + (s.ramped_panning : ℝ)))) ∧
    min 1 (1 - (s.ramped_panning : ℝ)) ≤ 1 ∧
    min 1 (1 + (s.ramped_panning : ℝ)) ≤ 1 ∧
    (s.ramped_panning = 1 →
      min 1 (1 - (s.ramped_panning : ℝ)) = 0 ∧
      min 1 (1 + (s.ramped_panning : ℝ)) = 1) ∧
    (s.ramped_panning = -1 →
      min 1 (1 - (s.ramped_panning : ℝ)) = 1 ∧
      min 1 (1 + (s.ramped_panning : ℝ)) = 0) := by
  have h1 : min (-(s.ramped_panning : ℝ) + 1) 1 = min 1 (1 - (s.ramped_panning : ℝ)) := by
    rw [min_comm]
    congr 1
    ring
  have h2 : min ((s.ramped_panning : ℝ) + 1) 1 = min 1 (1 + (s.ramped_panning : ℝ)) := by
    rw [min_comm]
    congr 1
    ring
  refine ⟨?_, min_le_left _ _, min_le_left _ _, ?_, ?_⟩
  · unfold sample
    simp only [h1, h2]
  · intro hp
    rw [hp]
    push_cast
    constructor <;> norm_num
  · intro hp
    rw [hp]
    push_cast
    constructor <;> norm_num

/-- Witness for C7's full-pan clauses at a concrete hard-panned state. -/
theorem c7_sample_pan_law_witness :
    min 1 (1 - ((({ ChannelState.new with ramped_panning := 1 } : ChannelState).ramped_panning : ℚ) : ℝ)) = 0 ∧
    min 1 (1 + ((({ ChannelState.new with ramped_panning := 1 } : ChannelState).ramped_panning : ℚ) : ℝ)) = 1 :=
  (c7_sample_pan_law { ChannelState.new with ramped_panning := 1 }).2.2.2.1 rfl

/-- C8: for `v ∈ [0,1]`, `ForceSetAmplitude v` makes amplitude,
ramped amplitude and slide target all equal `v` at once (so the sample
amplitude factor is `v` with no transient), while `SetAmplitude v` sets
amplitude and target but leaves the ramped amplitude unchanged, and any
subsequent sequence of nonnegative advance steps moves the ramped amplitude
by at most `RAMPING_RATE` times the total elapsed time. -/
theorem c8_force_vs_set (s : ChannelState) (v : ℚ) (h0 : 0 ≤ v) (h1 : v ≤ 1) :
    ((execute_command s (Command.ForceSetAmplitude v)).1.amplitude = v ∧
     (execute_command s (Command.ForceSetAmplitude v)).1.ramped_amplitude = v ∧
     (execute_command s (Command.ForceSetAmplitude v)).1.amplitude_slide_target = v) ∧
    ((execute_command s (Command.SetAmplitude v)).1.amplitude = v ∧
     (execute_command s (Command.SetAmplitude v)).1.amplitude_slide_target = v ∧
     (execute_command s (Command.SetAmplitude v)).1.ramped_amplitude = s.ramped_amplitude) ∧
    (∀ L : List (ℚ × (ℕ → ℚ) × ℕ), (∀ x ∈ L, 0 ≤ x.1) →
      |(advanceMany (execute_command s (Command.SetAmplitude v)).1 L).ramped_amplitude -
          s.ramped_amplitude| ≤ RAMPING_RATE * (L.map Prod.fst).sum) := by
  have hcl : rclamp v 0 1 = v := by
    unfold rclamp
    rw [max_eq_left h0, min_eq_left h1]
  refine ⟨⟨?_, ?_, ?_⟩, ⟨?_, ?_, rfl⟩, ?_⟩
  · show rclamp v 0 1 = v
    exact hcl
  · show rclamp v 0 1 = v
    exact hcl
  · show rclamp v 0 1 = v
    exact hcl
  · show rclamp v 0 1 = v
    exact hcl
  · show rclamp v 0 1 = v
    exact hcl
  · intro L hL
    exact advanceMany_ramped_bound L (execute_command s (Command.SetAmplitude v)).1 hL

/-- Witness for C8 at the fresh channel and `v = 1/2`. -/
theorem c8_force_vs_set_witness :
    (execute_command ChannelState.new (Command.ForceSetAmplitude (1/2))).1.amplitude = 1/2 ∧
    (execute_command ChannelState.new (Command.ForceSetAmplitude (1/2))).1.ramped_amplitude = 1/2 ∧
    (execute_command ChannelState.new (Command.ForceSetAmplitude (1/2))).1.amplitude_slide_target = 1/2 :=
  (c8_force_vs_set ChannelState.new (1/2) (by norm_num) (by norm_num)).1

/-- C9: after `SetCustomWaveform w`, table entry `i` equals
`clamp(w[i], -1, 1)`, and sampling the custom waveform at `period = i/32`
returns exactly that clamped entry. -/
theorem c9_custom_roundtrip (s : ChannelState) (w : CustomWaveform)
    (i : Fin CUSTOM_WIDTH) :
    (execute_command s (Command.SetCustomWaveform w)).1.custom_waveform i =
      rclamp (w i) (-1) 1 ∧
    custom (((i : ℕ) : ℚ) / ((CUSTOM_WIDTH : ℕ) : ℚ))
        ((execute_command s (Command.SetCustomWaveform w)).1.custom_waveform) =
      some (rclamp (w i) (-1) 1) := by
  have hwpos : (0 : ℚ) < ((CUSTOM_WIDTH : ℕ) : ℚ) := by norm_num [CUSTOM_WIDTH]
  have hne : ((CUSTOM_WIDTH : ℕ) : ℚ) ≠ 0 := ne_of_gt hwpos
  have hmul : (((i : ℕ) : ℚ) / ((CUSTOM_WIDTH : ℕ) : ℚ)) * ((CUSTOM_WIDTH : ℕ) : ℚ) =
      ((i : ℕ) : ℚ) := div_mul_cancel₀ _ hne
  have hidx : customIndex (((i : ℕ) : ℚ) / ((CUSTOM_WIDTH : ℕ) : ℚ)) = (i : ℕ) := by
    unfold customIndex
    rw [hmul, Int.floor_natCast]
    simp
  have hp1 : ((i : ℕ) : ℚ) / ((CUSTOM_WIDTH : ℕ) : ℚ) < 1 := by
    rw [div_lt_one hwpos]
    exact_mod_cast i.isLt
  refine ⟨rfl, ?_⟩
  rw [custom_eq_of_lt_one _ _ hp1]
  have hfin : (⟨customIndex (((i : ℕ) : ℚ) / ((CUSTOM_WIDTH : ℕ) : ℚ)),
      customIndex_lt _ hp1⟩ : Fin CUSTOM_WIDTH) = i := Fin.ext hidx
  rw [hfin]
  rfl

/-- C3: `advance` coincides with the algorithm exactly as the claim states
it (phase increment, Brownian regeneration loop for waveform 6, fold into
[0,1), then the five slew updates in order via
`approach(v,t,d) = v + clamp(t-v, -|d|, |d|)`), and the noise source is
read exactly once per wrap iteration: the stream cursor moves by the number
of wraps `⌊period + frequency·step⌋⁺` for waveform 6 and not at all
otherwise. -/
theorem c3_advance_refines_spec (s : ChannelState) (step : ℚ) (ns : ℕ → ℚ) (i : ℕ) :
    advance s step ns i = advanceSpec s step ns i ∧
    (advance s step ns i).2 =
      i + (if s.waveform = 6 then (⌊s.period + s.frequency * step⌋).toNat else 0) := by
  constructor
  · unfold advance advanceSpec
    simp only [noiseLoop_eq_noiseLoopSpec, approach_eq_approachSpec]
  · unfold advance
    by_cases h : s.waveform = 6
    · simp only [if_pos h, noiseLoop_idx]
    · simp [if_neg h]

/-- C4 counterexample: the range predicate of the claim is not, by itself,
preserved by `advance`: a state satisfying all the listed ranges but whose
amplitude slide target is 2 escapes `amplitude ∈ [0,1]` after one advance of
step 1. -/
theorem c4_ranges_not_inductive :
    ChannelRanges
      { period := 0, waveform := 0, custom_waveform := fun _ => 0, frequency := 0,
        amplitude := 1, panning := 0, ramped_amplitude := 0, ramped_panning := 0,
        frequency_slide_target := 0, amplitude_slide_target := 2,
        panning_slide_target := 0, frequency_rate := 0, amplitude_rate := 1,
        panning_rate := 0, noise_sample := 0 } ∧
    (0 : ℚ) ≤ 1 ∧
    ¬ ChannelRanges
      ((advance
        { period := 0, waveform := 0, custom_waveform := fun _ => 0, frequency := 0,
          amplitude := 1, panning := 0, ramped_amplitude := 0, ramped_panning := 0,
          frequency_slide_target := 0, amplitude_slide_target := 2,
          panning_slide_target := 0, frequency_rate := 0, amplitude_rate := 1,
          panning_rate := 0, noise_sample := 0 } 1 (fun _ => 0) 0).1) := by
  refine ⟨?_, by norm_num, ?_⟩
  · refine ⟨by norm_num, by norm_num, by norm_num, by norm_num, by norm_num,
      by norm_num, by norm_num, by norm_num, by norm_num, by norm_num,
      fun j => ⟨by norm_num, by norm_num⟩⟩
  · intro h
    have h2 := h.2.1
    have h3 : ((advance
        { period := 0, waveform := 0, custom_waveform := fun _ => 0, frequency := 0,
          amplitude := 1, panning := 0, ramped_amplitude := 0, ramped_panning := 0,
          frequency_slide_target := 0, amplitude_slide_target := 2,
          panning_slide_target := 0, frequency_rate := 0, amplitude_rate := 1,
          panning_rate := 0, noise_sample := 0 } 1 (fun _ => 0) 0).1).amplitude =
        approach 1 2 (1 * 1) := rfl
    rw [h3] at h2
    norm_num [approach] at h2

/-- C4 amended: the claim's predicate becomes inductive once the slide
targets are constrained to the same ranges: the strengthened invariant holds
for a fresh channel, is preserved by every `execute_command` (Ok or error)
and every `advance` with step ≥ 0, and consequently every reachable channel
state satisfies the originally claimed ranges. -/
theorem c4_invariant_strengthened :
    ChannelInv ChannelState.new ∧
    (∀ (s : ChannelState) (c : Command), ChannelInv s →
      ChannelInv (execute_command s c).1) ∧
    (∀ (s : ChannelState) (step : ℚ) (ns : ℕ → ℚ) (i : ℕ), ChannelInv s →
      0 ≤ step → ChannelInv (advance s step ns i).1) ∧
    (∀ s : ChannelState, Reachable s → ChannelRanges s) :=
  ⟨inv_new, fun s c h => inv_execute_command s c h,
   fun s step ns i h _ => inv_advance s step ns i h,
   fun s h => (reachable_inv s h).1⟩

/-- Witness for C4's amended invariant: preservation applied at a fresh
channel and a clamping command. -/
theorem c4_invariant_strengthened_witness :
    ChannelInv (execute_command ChannelState.new (Command.SetAmplitude 5)).1 :=
  c4_invariant_strengthened.2.1 ChannelState.new (Command.SetAmplitude 5)
    c4_invariant_strengthened.1

/-- C1 amended: for waveform indices 0–5 and any reachable channel state
with `period ∈ [0,1)`, both stereo values of `sample` lie in [-1,1].  (The
noise waveform 6 is excluded: its accumulated Brownian sample can reachably
exceed 1, see the counterexample.) -/
theorem c1_sample_bounded (s : ChannelState) (h : Reachable s) (hw : s.waveform ≤ 5)
    (h0 : 0 ≤ s.period) (h1 : s.period < 1) :
    ∃ l r, sample s = some (l, r) ∧ |l| ≤ 1 ∧ |r| ≤ 1 := by
  obtain ⟨⟨_, _, h3, h4, _, _, h7, h8, _⟩, _⟩ := reachable_inv s h
  exact sample_abs_le_one s h3 h4 h7 h8 hw h0 h1

/-- Witness for C1's amended bound at the fresh channel. -/
theorem c1_sample_bounded_witness :
    ∃ l r, sample ChannelState.new = some (l, r) ∧ |l| ≤ 1 ∧ |r| ≤ 1 :=
  c1_sample_bounded ChannelState.new Reachable.new (by norm_num [ChannelState.new])
    (by norm_num [ChannelState.new]) (by norm_num [ChannelState.new])

/-- C1 counterexample: a reachable state with the noise waveform, period 0,
full ramped amplitude and Brownian sample 1.77309 whose `sample` output
exceeds 1 on both channels, refuting the claimed [-1,1] bound for
waveform 6. -/
theorem c1_noise_exceeds_range :
    Reachable noisyTrace ∧ noisyTrace.waveform = 6 ∧ 0 ≤ noisyTrace.period ∧
    noisyTrace.period < 1 ∧
    sample noisyTrace = some (177309/100000, 177309/100000) ∧
    ¬ |(177309/100000 : ℝ)| ≤ 1 := by
  have hreach : Reachable noisyTrace := by
    unfold noisyTrace
    exact Reachable.adv _ _ _ _
      (Reachable.cmd _ _ (Reachable.cmd _ _ (Reachable.cmd _ _ Reachable.new)))
      (by norm_num) (fun k => by norm_num)
  have hs2 : (execute_command (execute_command (execute_command ChannelState.new
      (Command.SetWaveform 6)).1 (Command.ForceSetAmplitude 1)).1
      (Command.SetFrequency 2000000)).1 =
      { ChannelState.new with
          waveform := 6
          amplitude := 1
          ramped_amplitude := 1
          amplitude_slide_target := 1
          frequency := 2000000
          frequency_slide_target := 2000000 } := by
    norm_num [execute_command, rclamp, ChannelState.new]
  have hnl : noiseLoop (99/100) (fun _ => (9/10 : ℚ)) 2 0 0 = (0, 177309/100000, 2) := by
    rw [noiseLoop]
    norm_num
    rw [noiseLoop]
    norm_num
    rw [noiseLoop]
    norm_num
  have hadv : noisyTrace = { ChannelState.new with
      waveform := 6
      amplitude := 1
      ramped_amplitude := 1
      amplitude_slide_target := 1
      frequency := 2000000
      frequency_slide_target := 2000000
      period := 0
      noise_sample := 177309/100000 } := by
    unfold noisyTrace
    rw [hs2]
    norm_num [advance, approach, RAMPING_RATE, BROWNIAN_LEAK, ChannelState.new, hnl]
  have hsample : sample noisyTrace = some (177309/100000, 177309/100000) := by
    rw [hadv]
    unfold sample rawSample
    norm_num [ChannelState.new]
  refine ⟨hreach, by rw [hadv], by rw [hadv], by rw [hadv]; norm_num, hsample, ?_⟩
  rw [abs_of_pos (by norm_num)]
  norm_num

/-- C6 counterexample: after selecting the custom waveform and
`SetPhase(-1/2)` the period is the negative value -1/2, but the claimed
out-of-bounds indexing does not happen: the saturating float-to-usize cast
maps the negative floor to index 0, which is in bounds, and `sample`
returns a value instead of panicking. -/
theorem c6_no_out_of_bounds :
    (phaseTrace (-1/2)).period = -1/2 ∧
    (phaseTrace (-1/2)).waveform = 7 ∧
    customIndex ((phaseTrace (-1/2)).period) = 0 ∧
    customIndex ((phaseTrace (-1/2)).period) < CUSTOM_WIDTH ∧
    sample (phaseTrace (-1/2)) = some (0, 0) := by
  have hq : qtrunc (-(1/2) : ℚ) = 0 := by
    unfold qtrunc
    rw [if_neg (by norm_num)]
    norm_num
  have hphase : phaseTrace (-1/2) =
      { ChannelState.new with waveform := 7, period := -1/2 } := by
    norm_num [phaseTrace, execute_command, rustRem1, hq, ChannelState.new]
  have hidx : customIndex (-1/2 : ℚ) = 0 :=
    customIndex_eq_zero _ (by norm_num)
  have hw32 : (0 : ℕ) < CUSTOM_WIDTH := by norm_num [CUSTOM_WIDTH]
  refine ⟨by rw [hphase], by rw [hphase], by rw [hphase]; exact hidx,
    by rw [hphase]; rw [show ({ ChannelState.new with waveform := 7, period := -1/2 } :
      ChannelState).period = (-1/2 : ℚ) from rfl, hidx]; exact hw32, ?_⟩
  rw [hphase]
  unfold sample rawSample
  rw [show ({ ChannelState.new with waveform := 7, period := -1/2 } :
    ChannelState).waveform = 7 from rfl]
  rw [custom_eq_of_lt_one _ _ (by norm_num)]
  norm_num [ChannelState.new]

/-- C6 amended: for every negative phase `p`, `SetPhase(p)` stores
`period = p mod 1` with the dividend's sign, so `period ∈ (-1, 0]` (strictly
negative whenever `p` is not an integer); `custom`'s index computation
`floor(period·32) as usize` saturates the negative floor to 0, so the read
is in bounds at entry 0 and does not panic, and every waveform function
other than custom also tolerates the negative period. -/
theorem c6_negative_phase (s : ChannelState) (p : ℚ) (hp : p < 0) :
    (execute_command s (Command.SetPhase p)).1.period = rustRem1 p ∧
    rustRem1 p ≤ 0 ∧ -1 < rustRem1 p ∧
    ((∀ n : ℤ, p ≠ (n : ℚ)) → rustRem1 p < 0) ∧
    customIndex (rustRem1 p) = 0 ∧
    customIndex (rustRem1 p) < CUSTOM_WIDTH ∧
    (∀ data : CustomWaveform,
      custom (rustRem1 p) data = some (data ⟨0, by norm_num [CUSTOM_WIDTH]⟩)) ∧
    (∀ w : ℕ, w ≤ 6 →
      ∃ v, rawSample { s with period := rustRem1 p, waveform := w } = some v) := by
  obtain ⟨hgt, hle⟩ := rustRem1_neg_mem p hp
  refine ⟨rfl, hle, hgt, ?_, customIndex_eq_zero _ hle, ?_, ?_, ?_⟩
  · intro hn
    rcases lt_or_eq_of_le hle with h | h
    · exact h
    · exfalso
      have hpq : p = ((qtrunc p : ℤ) : ℚ) := by
        unfold rustRem1 at h
        linarith
      exact hn (qtrunc p) hpq
  · rw [customIndex_eq_zero _ hle]
    norm_num [CUSTOM_WIDTH]
  · intro data
    have hlt : rustRem1 p < 1 := by linarith
    rw [custom_eq_of_lt_one _ _ hlt]
    have hfin : (⟨customIndex (rustRem1 p), customIndex_lt _ hlt⟩ : Fin CUSTOM_WIDTH) =
        ⟨0, by norm_num [CUSTOM_WIDTH]⟩ := Fin.ext (customIndex_eq_zero _ hle)
    rw [hfin]
  · intro w hw
    exact rawSample_isSome_of_waveform_le_six _ hw

/-- Witness for C6's amended statement at the fresh channel and `p = -1/2`. -/
theorem c6_negative_phase_witness :
    (execute_command ChannelState.new (Command.SetPhase (-1/2))).1.period =
      rustRem1 (-1/2) ∧
    rustRem1 (-1/2) ≤ 0 ∧ (-1 : ℚ) < rustRem1 (-1/2) ∧
    customIndex (rustRem1 (-1/2)) = 0 :=
  have h := c6_negative_phase ChannelState.new (-1/2) (by norm_num)
  ⟨h.1, h.2.1, h.2.2.1, h.2.2.2.2.1⟩

end LSynth
